import Mathlib

/-!
Shallow embedding of `src/history_manager.py` (class `HistoryManager`),
an undo/redo history store for image snapshots, together with proofs of
the specification claims about it.

Snapshots (`numpy` arrays in the source) are modelled as values of an
abstract type `α`; `ndarray.copy()` produces a fresh buffer with the same
contents, so at the level of snapshot values it is the identity.  The two
bounded `collections.deque` stacks are modelled as lists whose rightmost
element is the most recently appended one, with the `maxlen` eviction
behaviour made explicit in `dequeAppend`.  Methods that mutate the store
are state-passing functions; methods that both mutate and return a value
return a pair of the result and the new store.
-/

/-- `ndarray.copy()`: a deep copy has the same contents, so on snapshot
values it is the identity. -/
def npCopy {α : Type} (x : α) : α := x

/-- `collections.deque.append` on a deque created with `maxlen`: appends on
the right and, when the deque is full, silently evicts the leftmost
(oldest) element, keeping the last `maxlen` elements. -/
def dequeAppend {α : Type} (maxlen : Nat) (xs : List α) (x : α) : List α :=
  (xs ++ [x]).drop (xs.length + 1 - maxlen)

/-- The state of a `HistoryManager`: the fields `_history_stack`,
`_redo_stack`, `_max_history` and `_current_state` of the Python class. -/
structure HistoryManager (α : Type) where
  history_stack : List α
  redo_stack : List α
  max_history : Nat
  current_state : Option α
  deriving Repr, DecidableEq

/-- `HistoryManager.__init__(max_history)`: `deque(maxlen=m)` raises
`ValueError` when `m` is negative; any `m ≥ 0` (including `0`) is accepted
and both stacks start empty with no current state. -/
def mkHistoryManager (α : Type) (max_history : Int) :
    Except String (HistoryManager α) :=
  if max_history < 0 then Except.error "maxlen must be non-negative"
  else Except.ok { history_stack := [], redo_stack := [],
                   max_history := max_history.toNat, current_state := none }

/-- The store produced by a successful construction with bound `m`. -/
def freshStore (α : Type) (m : Nat) : HistoryManager α :=
  { history_stack := [], redo_stack := [], max_history := m,
    current_state := none }

/-- `can_undo` property: `len(self._history_stack) > 0`. -/
def HistoryManager.can_undo {α : Type} (s : HistoryManager α) : Bool :=
  s.history_stack.length > 0

/-- `can_redo` property: `len(self._redo_stack) > 0`. -/
def HistoryManager.can_redo {α : Type} (s : HistoryManager α) : Bool :=
  s.redo_stack.length > 0

/-- `history_count` property: `len(self._history_stack)`. -/
def HistoryManager.history_count {α : Type} (s : HistoryManager α) : Nat :=
  s.history_stack.length

/-- `add_state(image)`: if a current state exists, append a copy of it to
the history deque (evicting the oldest entry at the bound); set the current
state to a copy of `image`; clear the redo deque. -/
def HistoryManager.add_state {α : Type} (s : HistoryManager α) (image : α) :
    HistoryManager α :=
  let hist :=
    match s.current_state with
    | some c => dequeAppend s.max_history s.history_stack (npCopy c)
    | none => s.history_stack
  { s with history_stack := hist,
           current_state := some (npCopy image),
           redo_stack := [] }

/-- `undo()`: if no undo is available return `None` leaving the store
unchanged; otherwise append a copy of the current state (when present) to
the redo deque, pop the rightmost history entry into the current state and
return a copy of it. -/
def HistoryManager.undo {α : Type} (s : HistoryManager α) :
    Option α × HistoryManager α :=
  if s.can_undo then
    let redo2 :=
      match s.current_state with
      | some c => dequeAppend s.max_history s.redo_stack (npCopy c)
      | none => s.redo_stack
    match s.history_stack.getLast? with
    | some prev =>
        (some (npCopy prev),
         { s with history_stack := s.history_stack.dropLast,
                  redo_stack := redo2,
                  current_state := some prev })
    | none => (none, s)
  else (none, s)

/-- `redo()`: if no redo is available return `None` leaving the store
unchanged; otherwise append a copy of the current state (when present) to
the history deque, pop the rightmost redo entry into the current state and
return a copy of it. -/
def HistoryManager.redo {α : Type} (s : HistoryManager α) :
    Option α × HistoryManager α :=
  if s.can_redo then
    let hist2 :=
      match s.current_state with
      | some c => dequeAppend s.max_history s.history_stack (npCopy c)
      | none => s.history_stack
    match s.redo_stack.getLast? with
    | some nxt =>
        (some (npCopy nxt),
         { s with redo_stack := s.redo_stack.dropLast,
                  history_stack := hist2,
                  current_state := some nxt })
    | none => (none, s)
  else (none, s)

/-- `clear_history()`: clear both deques and drop the current state. -/
def HistoryManager.clear_history {α : Type} (s : HistoryManager α) :
    HistoryManager α :=
  { s with history_stack := [], redo_stack := [], current_state := none }

/-- `get_current_state()`: return a copy of the current state (or `None`);
the method reads the store without assigning to any attribute, so the
store component of the result is the input store. -/
def HistoryManager.get_current_state {α : Type} (s : HistoryManager α) :
    Option α × HistoryManager α :=
  (Option.map npCopy s.current_state, s)

/-- `initialize_state(image)`: `clear_history()` followed by setting the
current state to a copy of `image`. -/
def HistoryManager.init_state {α : Type} (s : HistoryManager α) (image : α) :
    HistoryManager α :=
  { s.clear_history with current_state := some (npCopy image) }

/-- One public operation on the store. -/
inductive Op (α : Type) where
  | addState (x : α)
  | opUndo
  | opRedo
  | clearHist
  | initSt (x : α)
  | readCurrent

/-- Apply one operation to a store, keeping only the store state. -/
def applyOp {α : Type} (s : HistoryManager α) : Op α → HistoryManager α
  | Op.addState x => s.add_state x
  | Op.opUndo => s.undo.2
  | Op.opRedo => s.redo.2
  | Op.clearHist => s.clear_history
  | Op.initSt x => s.init_state x
  | Op.readCurrent => s.get_current_state.2

/-- Run a sequence of operations from a given store. -/
def run {α : Type} (s : HistoryManager α) (ops : List (Op α)) :
    HistoryManager α :=
  ops.foldl applyOp s

/-- The last `n` elements of a list (all of it when it is shorter). -/
def lastN {α : Type} (n : Nat) (l : List α) : List α :=
  l.drop (l.length - n)

/-- The reachable-state invariant of the store: the two stacks together
never hold more than `max_history` snapshots, and a non-empty stack forces
a present current state. -/
def StoreInv {α : Type} (s : HistoryManager α) : Prop :=
  s.history_stack.length + s.redo_stack.length ≤ s.max_history ∧
  ((s.history_stack ≠ [] ∨ s.redo_stack ≠ []) → s.current_state.isSome)

lemma dequeAppend_length {α : Type} (m : Nat) (xs : List α) (x : α) :
    (dequeAppend m xs x).length = min (xs.length + 1) m := by
  simp [dequeAppend]
  omega

lemma dequeAppend_eq_lastN {α : Type} (m : Nat) (xs : List α) (x : α) :
    dequeAppend m xs x = lastN m (xs ++ [x]) := by
  simp [dequeAppend, lastN]

lemma lastN_eq_reverse {α : Type} (n : Nat) (l : List α) :
    lastN n l = (l.reverse.take n).reverse := by
  show l.rtake n = (l.reverse.take n).reverse
  rw [List.rtake_eq_reverse_take_reverse]

lemma take_cons_take {α : Type} (m : Nat) (r : List α) (z : α) :
    (z :: r.take m).take m = (z :: r).take m := by
  cases m with
  | zero => simp
  | succ k =>
      simp [List.take_succ_cons, List.take_take, Nat.min_eq_left (Nat.le_succ k)]

lemma dequeAppend_lastN {α : Type} (m : Nat) (l : List α) (z : α) :
    dequeAppend m (lastN m l) z = lastN m (l ++ [z]) := by
  rw [dequeAppend_eq_lastN, lastN_eq_reverse, lastN_eq_reverse (l := l ++ [z]),
    List.reverse_append, List.reverse_append]
  simp only [List.reverse_singleton, List.singleton_append]
  rw [lastN_eq_reverse, List.reverse_reverse, take_cons_take]

lemma dequeAppend_getLast {α : Type} (m : Nat) (xs : List α) (x : α)
    (hm : 1 ≤ m) : (dequeAppend m xs x).getLast? = some x := by
  unfold dequeAppend
  rw [List.drop_append_of_le_length (by omega), List.getLast?_concat]

lemma dequeAppend_of_lt {α : Type} (m : Nat) (xs : List α) (x : α)
    (h : xs.length < m) : dequeAppend m xs x = xs ++ [x] := by
  unfold dequeAppend
  rw [Nat.sub_eq_zero_of_le (by omega), List.drop_zero]

lemma undo_empty {α : Type} (s : HistoryManager α) (h : s.history_stack = []) :
    s.undo = (none, s) := by
  unfold HistoryManager.undo
  simp [HistoryManager.can_undo, h]

lemma redo_empty {α : Type} (s : HistoryManager α) (h : s.redo_stack = []) :
    s.redo = (none, s) := by
  unfold HistoryManager.redo
  simp [HistoryManager.can_redo, h]

lemma undo_eq {α : Type} (s : HistoryManager α) (c prev : α)
    (hc : s.current_state = some c)
    (hl : s.history_stack.getLast? = some prev) :
    s.undo = (some prev,
      { s with history_stack := s.history_stack.dropLast,
               redo_stack := dequeAppend s.max_history s.redo_stack c,
               current_state := some prev }) := by
  have hne : s.history_stack ≠ [] := by
    intro h
    rw [h] at hl
    simp at hl
  have hcu : s.can_undo = true := by
    simp [HistoryManager.can_undo, List.length_pos, hne]
  unfold HistoryManager.undo
  rw [hcu]
  simp only [if_true, hc, hl, npCopy]

lemma redo_eq {α : Type} (s : HistoryManager α) (c nxt : α)
    (hc : s.current_state = some c)
    (hl : s.redo_stack.getLast? = some nxt) :
    s.redo = (some nxt,
      { s with redo_stack := s.redo_stack.dropLast,
               history_stack := dequeAppend s.max_history s.history_stack c,
               current_state := some nxt }) := by
  have hne : s.redo_stack ≠ [] := by
    intro h
    rw [h] at hl
    simp at hl
  have hcr : s.can_redo = true := by
    simp [HistoryManager.can_redo, List.length_pos, hne]
  unfold HistoryManager.redo
  rw [hcr]
  simp only [if_true, hc, hl, npCopy]

/-- C3: after every `add_state X`, regardless of the redo stack's prior
contents, the redo stack is empty and `can_redo` is false. -/
theorem add_state_clears_redo {α : Type} (s : HistoryManager α) (x : α) :
    (s.add_state x).redo_stack = [] ∧ (s.add_state x).can_redo = false :=
  ⟨rfl, rfl⟩

/-- C4: `undo` on an empty undo stack and `redo` on an empty redo stack are
no-ops returning an absent result and leaving the store unchanged; right
after construction or after `clear_history`, `can_undo` is false and
`undo` returns an absent result. -/
theorem empty_history_noop {α : Type} (s : HistoryManager α) (m : Nat) :
    (s.history_stack = [] → s.undo = (none, s)) ∧
    (s.redo_stack = [] → s.redo = (none, s)) ∧
    ((freshStore α m).can_undo = false ∧
      (freshStore α m).undo = (none, freshStore α m)) ∧
    (s.clear_history.can_undo = false ∧
      s.clear_history.undo = (none, s.clear_history)) :=
  ⟨fun h => undo_empty s h, fun h => redo_empty s h,
    ⟨rfl, undo_empty _ rfl⟩, ⟨rfl, undo_empty _ rfl⟩⟩

def c4Store : HistoryManager Nat :=
  { history_stack := [], redo_stack := [], max_history := 3,
    current_state := some 5 }

theorem empty_history_noop_witness :
    c4Store.undo = (none, c4Store) ∧ c4Store.redo = (none, c4Store) ∧
    (freshStore Nat 2).can_undo = false ∧
    (freshStore Nat 2).undo = (none, freshStore Nat 2) ∧
    c4Store.clear_history.can_undo = false ∧
    c4Store.clear_history.undo = (none, c4Store.clear_history) :=
  ⟨(empty_history_noop c4Store 2).1 rfl, (empty_history_noop c4Store 2).2.1 rfl,
    (empty_history_noop (freshStore Nat 2) 2).2.2.1.1,
    (empty_history_noop (freshStore Nat 2) 2).2.2.1.2,
    (empty_history_noop c4Store 2).2.2.2.1,
    (empty_history_noop c4Store 2).2.2.2.2⟩

/-- C5 counterexample: constructing with `maxDepth = 0`, a non-positive
bound, does not fail; it succeeds and yields the empty store. -/
theorem mk_zero_succeeds :
    mkHistoryManager Nat 0 =
      Except.ok { history_stack := [], redo_stack := [], max_history := 0,
                  current_state := none } := by
  rfl

/-- C5 (amended): construction fails exactly for negative `maxDepth`
(`deque(maxlen=m)` raises `ValueError` for `m < 0`); every `maxDepth ≥ 0`,
zero included, succeeds and yields a store with empty stacks and an absent
current state. -/
theorem mk_contract (m : Int) :
    (m < 0 → mkHistoryManager Nat m =
      Except.error "maxlen must be non-negative") ∧
    (0 ≤ m → mkHistoryManager Nat m =
      Except.ok { history_stack := [], redo_stack := [],
                  max_history := m.toNat, current_state := none }) := by
  constructor
  · intro h
    simp [mkHistoryManager, h]
  · intro h
    simp [mkHistoryManager, Int.not_lt.mpr h]

theorem mk_contract_witness :
    mkHistoryManager Nat (-1) = Except.error "maxlen must be non-negative" ∧
    mkHistoryManager Nat 3 =
      Except.ok { history_stack := [], redo_stack := [], max_history := 3,
                  current_state := none } :=
  ⟨(mk_contract (-1)).1 (by decide), (mk_contract 3).2 (by decide)⟩

/-- C8: `init_state X` equals `clear_history` followed by setting the
current state to a copy of `X`: both stacks empty, `history_count = 0`,
`can_undo` and `can_redo` false, current equal to `X`, for every prior
store state. -/
theorem init_state_eq_clear_then_set {α : Type} (s : HistoryManager α)
    (x : α) :
    s.init_state x = { s.clear_history with current_state := some x } ∧
    (s.init_state x).history_stack = [] ∧
    (s.init_state x).redo_stack = [] ∧
    (s.init_state x).history_count = 0 ∧
    (s.init_state x).can_undo = false ∧
    (s.init_state x).can_redo = false ∧
    (s.init_state x).current_state = some x :=
  ⟨rfl, rfl, rfl, rfl, rfl, rfl, rfl⟩

/-- C9: `get_current_state` is a pure read: the store it leaves behind is
the input store, the value returned is (a copy of) the current state, and
a second read returns the same value. -/
theorem get_current_state_pure {α : Type} (s : HistoryManager α) :
    s.get_current_state.2 = s ∧
    s.get_current_state.1 = s.current_state ∧
    s.get_current_state.2.get_current_state.1 = s.get_current_state.1 := by
  refine ⟨rfl, ?_, rfl⟩
  cases h : s.current_state <;>
    simp [HistoryManager.get_current_state, h, npCopy]

def c7s4 : HistoryManager Nat :=
  ((((freshStore Nat 2).add_state 10).add_state 20).add_state 30).add_state 40

def c7u1 : Option Nat × HistoryManager Nat := c7s4.undo

def c7u2 : Option Nat × HistoryManager Nat := c7u1.2.undo

def c7u3 : Option Nat × HistoryManager Nat := c7u2.2.undo

def c7r : Option Nat × HistoryManager Nat := c7u3.2.redo

/-- C7: the spec scenario at `maxDepth = 2` with A=10, B=20, C=30, D=40:
after the four `add_state` calls the current state is D and the undo stack
is [B, C] (A evicted); the first `undo` returns C leaving undo=[B],
redo=[D]; the second returns B leaving undo=[], redo=[D, C]; the third
returns absent with the store unchanged; `redo` then returns C leaving
undo=[B], redo=[D]. -/
theorem spec_scenario_maxdepth_two :
    c7s4.current_state = some 40 ∧ c7s4.history_stack = [20, 30] ∧
    c7s4.redo_stack = [] ∧
    c7u1.1 = some 30 ∧ c7u1.2.current_state = some 30 ∧
    c7u1.2.history_stack = [20] ∧ c7u1.2.redo_stack = [40] ∧
    c7u2.1 = some 20 ∧ c7u2.2.current_state = some 20 ∧
    c7u2.2.history_stack = [] ∧ c7u2.2.redo_stack = [40, 30] ∧
    c7u3.1 = none ∧ c7u3.2 = c7u2.2 ∧
    c7r.1 = some 30 ∧ c7r.2.current_state = some 30 ∧
    c7r.2.history_stack = [20] ∧ c7r.2.redo_stack = [40] := by
  decide

lemma storeInv_add_state {α : Type} (s : HistoryManager α) (x : α)
    (h : StoreInv s) : StoreInv (s.add_state x) := by
  obtain ⟨hlen, -⟩ := h
  unfold StoreInv
  cases hc : s.current_state with
  | none =>
      refine ⟨?_, fun _ => ?_⟩
      · simp [HistoryManager.add_state, hc]
        omega
      · simp [HistoryManager.add_state, hc]
  | some c =>
      refine ⟨?_, fun _ => ?_⟩
      · simp [HistoryManager.add_state, hc, dequeAppend_length]
      · simp [HistoryManager.add_state, hc]

lemma storeInv_undo {α : Type} (s : HistoryManager α)
    (h : StoreInv s) : StoreInv s.undo.2 := by
  obtain ⟨hlen, hcur⟩ := h
  cases hh : s.history_stack with
  | nil => rw [undo_empty s hh]; exact ⟨hlen, hcur⟩
  | cons a t =>
      have hne : s.history_stack ≠ [] := by rw [hh]; simp
      obtain ⟨c, hc⟩ := Option.isSome_iff_exists.mp (hcur (Or.inl hne))
      obtain ⟨prev, hl⟩ := Option.isSome_iff_exists.mp
        (List.getLast?_isSome.mpr hne)
      rw [undo_eq s c prev hc hl]
      unfold StoreInv
      refine ⟨?_, fun _ => rfl⟩
      have h1 : 1 ≤ s.history_stack.length := by rw [hh]; simp
      simp only [List.length_dropLast, dequeAppend_length]
      omega

lemma storeInv_redo {α : Type} (s : HistoryManager α)
    (h : StoreInv s) : StoreInv s.redo.2 := by
  obtain ⟨hlen, hcur⟩ := h
  cases hh : s.redo_stack with
  | nil => rw [redo_empty s hh]; exact ⟨hlen, hcur⟩
  | cons a t =>
      have hne : s.redo_stack ≠ [] := by rw [hh]; simp
      obtain ⟨c, hc⟩ := Option.isSome_iff_exists.mp (hcur (Or.inr hne))
      obtain ⟨nxt, hl⟩ := Option.isSome_iff_exists.mp
        (List.getLast?_isSome.mpr hne)
      rw [redo_eq s c nxt hc hl]
      unfold StoreInv
      refine ⟨?_, fun _ => rfl⟩
      have h1 : 1 ≤ s.redo_stack.length := by rw [hh]; simp
      simp only [List.length_dropLast, dequeAppend_length]
      omega

lemma storeInv_applyOp {α : Type} (s : HistoryManager α) (o : Op α)
    (h : StoreInv s) : StoreInv (applyOp s o) := by
  cases o with
  | addState x => exact storeInv_add_state s x h
  | opUndo => exact storeInv_undo s h
  | opRedo => exact storeInv_redo s h
  | clearHist =>
      refine ⟨?_, fun hor => ?_⟩
      · simp [HistoryManager.clear_history, applyOp]
      · simp [HistoryManager.clear_history, applyOp] at hor
  | initSt x =>
      refine ⟨?_, fun _ => ?_⟩ <;>
        simp [HistoryManager.init_state, HistoryManager.clear_history, applyOp]
  | readCurrent => exact h

lemma storeInv_run {α : Type} (s : HistoryManager α) (ops : List (Op α))
    (h : StoreInv s) : StoreInv (run s ops) := by
  induction ops generalizing s with
  | nil => exact h
  | cons o rest ih => exact ih (applyOp s o) (storeInv_applyOp s o h)

lemma storeInv_fresh {α : Type} (m : Nat) : StoreInv (freshStore α m) := by
  refine ⟨?_, fun hor => ?_⟩
  · simp [freshStore]
  · simp [freshStore] at hor

lemma undo_snd_max {α : Type} (s : HistoryManager α) :
    s.undo.2.max_history = s.max_history := by
  unfold HistoryManager.undo
  split
  · cases s.current_state <;> cases s.history_stack.getLast? <;> rfl
  · rfl

lemma redo_snd_max {α : Type} (s : HistoryManager α) :
    s.redo.2.max_history = s.max_history := by
  unfold HistoryManager.redo
  split
  · cases s.current_state <;> cases s.redo_stack.getLast? <;> rfl
  · rfl

lemma applyOp_max {α : Type} (s : HistoryManager α) (o : Op α) :
    (applyOp s o).max_history = s.max_history := by
  cases o with
  | addState x => rfl
  | opUndo => exact undo_snd_max s
  | opRedo => exact redo_snd_max s
  | clearHist => rfl
  | initSt x => rfl
  | readCurrent => rfl

lemma run_max {α : Type} (s : HistoryManager α) (ops : List (Op α)) :
    (run s ops).max_history = s.max_history := by
  induction ops generalizing s with
  | nil => rfl
  | cons o rest ih =>
      have hstep : run s (o :: rest) = run (applyOp s o) rest := rfl
      rw [hstep, ih, applyOp_max]

lemma lastN_nil {α : Type} (n : Nat) : lastN n ([] : List α) = [] := by
  simp [lastN]

lemma lastN_length {α : Type} (n : Nat) (l : List α) :
    (lastN n l).length = min n l.length := by
  simp [lastN]
  omega

lemma run_addStates {α : Type} (m : Nat) (xs : List α) :
    (run (freshStore α m) (xs.map Op.addState)).history_stack =
      lastN m xs.dropLast ∧
    (run (freshStore α m) (xs.map Op.addState)).current_state =
      xs.getLast? ∧
    (run (freshStore α m) (xs.map Op.addState)).redo_stack = [] ∧
    (run (freshStore α m) (xs.map Op.addState)).max_history = m := by
  induction xs using List.reverseRecOn with
  | nil => exact ⟨(lastN_nil m).symm, rfl, rfl, rfl⟩
  | append_singleton ys y ih =>
      obtain ⟨ih1, ih2, ih3, ih4⟩ := ih
      have hrun : run (freshStore α m) ((ys ++ [y]).map Op.addState)
          = (run (freshStore α m) (ys.map Op.addState)).add_state y := by
        rw [List.map_append, run, List.foldl_append]
        rfl
      cases hl : ys.getLast? with
      | none =>
          have hysnil : ys = [] := List.getLast?_eq_none_iff.mp hl
          subst hysnil
          refine ⟨?_, ?_, ?_, ?_⟩ <;>
            simp [hrun, run, applyOp, HistoryManager.add_state, freshStore,
              npCopy, lastN]
      | some g =>
          have hcur : (run (freshStore α m)
              (ys.map Op.addState)).current_state = some g := by
            rw [ih2, hl]
          have hdl : ys.dropLast ++ [g] = ys :=
            List.dropLast_append_getLast? g hl
          refine ⟨?_, ?_, ?_, ?_⟩
          · rw [hrun]
            simp only [HistoryManager.add_state, hcur, npCopy, ih1, ih4]
            rw [dequeAppend_lastN, hdl, List.dropLast_concat]
          · rw [hrun]
            simp [HistoryManager.add_state, hcur, npCopy, List.getLast?_concat]
          · rw [hrun]
            rfl
          · rw [hrun]
            simp [HistoryManager.add_state, ih4]

/-- C1: for every operation sequence on a store constructed with bound
`m`, each stack holds at most `m` snapshots; and for any sequence of
`add_state` calls longer than `m`, the undo stack holds exactly the `m`
most-recently-superseded states (all inputs but the last, keeping the
last `m` of them, the oldest silently evicted). -/
theorem stack_bounds_and_eviction {α : Type} (m : Nat) (ops : List (Op α))
    (xs : List α) (hx : m < xs.length) :
    (run (freshStore α m) ops).history_stack.length ≤ m ∧
    (run (freshStore α m) ops).redo_stack.length ≤ m ∧
    (run (freshStore α m) (xs.map Op.addState)).history_stack =
      lastN m xs.dropLast ∧
    (run (freshStore α m) (xs.map Op.addState)).history_stack.length = m ∧
    (run (freshStore α m) (xs.map Op.addState)).current_state =
      xs.getLast? := by
  obtain ⟨hlen, -⟩ := storeInv_run (freshStore α m) ops (storeInv_fresh m)
  have hmax : (run (freshStore α m) ops).max_history = m := run_max _ _
  obtain ⟨h1, h2, h3, h4⟩ := run_addStates m xs
  refine ⟨by omega, by omega, h1, ?_, h2⟩
  rw [h1, lastN_length, List.length_dropLast]
  omega

theorem stack_bounds_and_eviction_witness :
    (run (freshStore Nat 1) [Op.addState 5, Op.opUndo]).history_stack.length
        ≤ 1 ∧
    (run (freshStore Nat 1) [Op.addState 5, Op.opUndo]).redo_stack.length
        ≤ 1 ∧
    (run (freshStore Nat 1) ([3, 4].map Op.addState)).history_stack =
      lastN 1 ([3, 4] : List Nat).dropLast ∧
    (run (freshStore Nat 1) ([3, 4].map Op.addState)).history_stack.length
        = 1 ∧
    (run (freshStore Nat 1) ([3, 4].map Op.addState)).current_state =
      ([3, 4] : List Nat).getLast? :=
  stack_bounds_and_eviction 1 [Op.addState 5, Op.opUndo] [3, 4] (by decide)

/-- C10: in every state reachable from construction, the combined number
of snapshots in the undo and redo stacks never exceeds the bound, and
whenever either stack is non-empty the current state is present. -/
theorem reachable_combined_bound {α : Type} (m : Nat) (ops : List (Op α)) :
    (run (freshStore α m) ops).history_stack.length +
      (run (freshStore α m) ops).redo_stack.length ≤ m ∧
    (((run (freshStore α m) ops).history_stack ≠ [] ∨
        (run (freshStore α m) ops).redo_stack ≠ []) →
      (run (freshStore α m) ops).current_state.isSome = true) := by
  obtain ⟨h1, h2⟩ := storeInv_run (freshStore α m) ops (storeInv_fresh m)
  have hmax : (run (freshStore α m) ops).max_history = m := run_max _ _
  exact ⟨by omega, h2⟩

theorem reachable_combined_bound_witness :
    (run (freshStore Nat 2)
        [Op.addState 4, Op.addState 6]).history_stack.length +
      (run (freshStore Nat 2)
        [Op.addState 4, Op.addState 6]).redo_stack.length ≤ 2 ∧
    (run (freshStore Nat 2)
        [Op.addState 4, Op.addState 6]).current_state.isSome = true :=
  ⟨(reachable_combined_bound 2 [Op.addState 4, Op.addState 6]).1,
   (reachable_combined_bound 2 [Op.addState 4, Op.addState 6]).2
     (Or.inl (by decide))⟩

/-- C2: on a store where `can_undo` holds (with its current state present
and the undo stack within the bound, as in every reachable store),
`undo()` immediately followed by `redo()` restores the exact snapshot that
was current before the `undo()`, and the `redo()` returns it. -/
theorem undo_redo_roundtrip {α : Type} (s : HistoryManager α) (c : α)
    (hc : s.current_state = some c) (hcu : s.can_undo = true)
    (hb : s.history_stack.length ≤ s.max_history) :
    s.undo.2.redo.2.current_state = some c ∧ s.undo.2.redo.1 = some c := by
  have hpos : 0 < s.history_stack.length := by
    simpa [HistoryManager.can_undo] using hcu
  have hne : s.history_stack ≠ [] := List.ne_nil_of_length_pos hpos
  obtain ⟨prev, hl⟩ :=
    Option.isSome_iff_exists.mp (List.getLast?_isSome.mpr hne)
  rw [undo_eq s c prev hc hl]
  have hm1 : 1 ≤ s.max_history := le_trans hpos hb
  have hrl : (dequeAppend s.max_history s.redo_stack c).getLast? = some c :=
    dequeAppend_getLast _ _ _ hm1
  rw [redo_eq _ prev c rfl hrl]
  exact ⟨rfl, rfl⟩

def c2Store : HistoryManager Nat :=
  { history_stack := [5], redo_stack := [], max_history := 2,
    current_state := some 7 }

theorem undo_redo_roundtrip_witness :
    c2Store.undo.2.redo.2.current_state = some 7 ∧
    c2Store.undo.2.redo.1 = some 7 :=
  undo_redo_roundtrip c2Store 7 rfl (by decide) (by decide)

/-- C6: on a store where `can_undo` holds (current state present and the
stacks within the combined bound, as in every reachable store), `undo()`
pushes the current snapshot onto the redo stack, pops the most recent
undo-stack entry into the current state, returns it, and moves exactly
one snapshot: the undo stack shrinks by one and the redo stack grows by
one. -/
theorem undo_moves_one {α : Type} (s : HistoryManager α) (c : α)
    (hc : s.current_state = some c) (hcu : s.can_undo = true)
    (hb : s.history_stack.length + s.redo_stack.length ≤ s.max_history) :
    s.undo.2.redo_stack = s.redo_stack ++ [c] ∧
    s.undo.2.history_stack = s.history_stack.dropLast ∧
    s.undo.2.current_state = s.history_stack.getLast? ∧
    s.undo.1 = s.history_stack.getLast? ∧
    s.undo.2.history_stack.length + 1 = s.history_stack.length ∧
    s.undo.2.redo_stack.length = s.redo_stack.length + 1 := by
  have hpos : 0 < s.history_stack.length := by
    simpa [HistoryManager.can_undo] using hcu
  have hne : s.history_stack ≠ [] := List.ne_nil_of_length_pos hpos
  obtain ⟨prev, hl⟩ :=
    Option.isSome_iff_exists.mp (List.getLast?_isSome.mpr hne)
  have hrlt : s.redo_stack.length < s.max_history := by omega
  rw [undo_eq s c prev hc hl, dequeAppend_of_lt _ _ _ hrlt]
  refine ⟨rfl, rfl, hl.symm, ?_, ?_, by simp⟩
  · simpa using hl.symm
  · simp [List.length_dropLast]
    omega

def c6Store : HistoryManager Nat :=
  { history_stack := [3, 5], redo_stack := [9], max_history := 4,
    current_state := some 7 }

theorem undo_moves_one_witness :
    c6Store.undo.2.redo_stack = c6Store.redo_stack ++ [7] ∧
    c6Store.undo.2.history_stack = c6Store.history_stack.dropLast ∧
    c6Store.undo.2.current_state = c6Store.history_stack.getLast? ∧
    c6Store.undo.1 = c6Store.history_stack.getLast? ∧
    c6Store.undo.2.history_stack.length + 1 =
      c6Store.history_stack.length ∧
    c6Store.undo.2.redo_stack.length = c6Store.redo_stack.length + 1 :=
  undo_moves_one c6Store 7 rfl (by decide) (by decide)
